import Mathlib

/-!
Verification development for the `poisson.ipynb` notebook (IGA-Python,
chapter 1).  The notebook poses a 2D Poisson problem with SymPDE, discretizes
and solves it with PsyDAC, measures L2/H1 errors, and visualizes the result.

The only original executable logic of the repository lives in the
visualization cell: `refine_array_1d`, `plot_solutions`, and the sequence of
global name bindings across the cells.  These are embedded below over exact
rationals.  The error-norm functionals and the solver are external-library
calls; where the claims concern them, the missing operation is modelled from
the specification and the model is documented as such.
-/

/-- Embedding of `np.linspace(a, b, num)`: `num` evenly spaced samples from
`a` to `b`, endpoints included (for `num ≥ 2`); `[a]` for `num = 1`, empty for
`num = 0`. -/
def linspace (a b : ℚ) (num : ℕ) : List ℚ :=
  if num = 0 then []
  else if num = 1 then [a]
  else (List.range num).map (fun i : ℕ => a + (b - a) * (i : ℚ) / ((num : ℚ) - 1))

/-- Embedding of `refine_array_1d(breaks, N)` from the visualization cell:
`np.concatenate([np.linspace(breaks[i], breaks[i+1], N+1)[:-1] for i in
range(len(breaks)-1)])` followed by `np.append(refined, breaks[-1])`. -/
def refine_array_1d (breaks : List ℚ) (N : ℕ) : List ℚ :=
  ((List.range (breaks.length - 1)).map
      (fun i : ℕ =>
        (linspace (breaks.getD i 0) (breaks.getD (i + 1) 0) (N + 1)).dropLast)).flatten
    ++ [breaks.getLastD 0]

/-- The `N` points contributed by one interval `[a, b]`:
`np.linspace(a, b, N+1)[:-1]`, i.e. the left endpoint plus `N - 1` equally
spaced interior points. -/
def segPoints (a b : ℚ) (N : ℕ) : List ℚ :=
  (List.range N).map (fun i : ℕ => a + (b - a) * (i : ℚ) / (N : ℚ))

/-- Structural recursion equivalent of `refine_array_1d`, used for proofs. -/
def refineRec : List ℚ → ℕ → List ℚ
  | [], _ => [0]
  | [a], _ => [a]
  | a :: b :: t, N => segPoints a b N ++ refineRec (b :: t) N

lemma linspace_dropLast (a b : ℚ) (N : ℕ) :
    (linspace a b (N + 1)).dropLast = segPoints a b N := by
  cases N with
  | zero => simp [linspace, segPoints]
  | succ n =>
    have h2 : n + 1 + 1 ≠ 0 := by omega
    have h3 : n + 1 + 1 ≠ 1 := by omega
    simp only [linspace, segPoints, if_neg h2, if_neg h3]
    rw [List.range_succ, List.map_append, List.map_singleton, List.dropLast_concat]
    apply List.map_congr_left
    intro i _
    push_cast
    ring_nf

lemma flatten_range_map_succ {α : Type} (f : ℕ → List α) (n : ℕ) :
    ((List.range (n + 1)).map f).flatten
      = f 0 ++ ((List.range n).map (fun i => f (i + 1))).flatten := by
  rw [List.range_succ_eq_map, List.map_cons, List.flatten_cons, List.map_map]
  rfl

lemma refine_eq_rec (breaks : List ℚ) (N : ℕ) :
    refine_array_1d breaks N = refineRec breaks N := by
  induction breaks with
  | nil => rfl
  | cons a t ih =>
    cases t with
    | nil => rfl
    | cons b t' =>
      show refine_array_1d (a :: b :: t') N = segPoints a b N ++ refineRec (b :: t') N
      rw [← ih]
      simp only [refine_array_1d, List.length_cons, Nat.add_sub_cancel,
        flatten_range_map_succ, linspace_dropLast, List.getD_cons_zero,
        List.getD_cons_succ, List.getLastD_cons, List.append_assoc]

lemma segPoints_length (a b : ℚ) (N : ℕ) : (segPoints a b N).length = N := by
  simp [segPoints]

lemma refineRec_length (breaks : List ℚ) (N : ℕ) (h : 1 ≤ breaks.length) :
    (refineRec breaks N).length = (breaks.length - 1) * N + 1 := by
  induction breaks with
  | nil => simp at h
  | cons a t ih =>
    cases t with
    | nil => simp [refineRec]
    | cons b t' =>
      have ih' := ih (by simp)
      show (segPoints a b N ++ refineRec (b :: t') N).length = _
      rw [List.length_append, segPoints_length, ih']
      simp only [List.length_cons, Nat.add_sub_cancel]
      ring

lemma refineRec_ne_nil (breaks : List ℚ) (N : ℕ) : refineRec breaks N ≠ [] := by
  induction breaks with
  | nil => simp [refineRec]
  | cons a t ih =>
    cases t with
    | nil => simp [refineRec]
    | cons b t' =>
      show segPoints a b N ++ refineRec (b :: t') N ≠ []
      simp [ih]

lemma refineRec_getLastD (breaks : List ℚ) (N : ℕ) (h : 1 ≤ breaks.length) :
    (refineRec breaks N).getLastD 0 = breaks.getLastD 0 := by
  induction breaks with
  | nil => simp at h
  | cons a t ih =>
    cases t with
    | nil => rfl
    | cons b t' =>
      have ih' := ih (by simp)
      show (segPoints a b N ++ refineRec (b :: t') N).getLastD 0 = _
      rw [List.getLastD_eq_getLast?, List.getLast?_append_of_ne_nil _ (refineRec_ne_nil _ _),
        ← List.getLastD_eq_getLast?, ih']
      simp [List.getLastD_cons]

lemma segPoints_ne_nil (a b : ℚ) (m : ℕ) : segPoints a b (m + 1) ≠ [] := by
  rw [segPoints, List.range_succ_eq_map, List.map_cons]
  simp

lemma segPoints_headD (a b : ℚ) (m : ℕ) : (segPoints a b (m + 1)).headD 0 = a := by
  rw [segPoints, List.range_succ_eq_map, List.map_cons]
  simp

lemma refineRec_headD (breaks : List ℚ) (N : ℕ) (hk : 2 ≤ breaks.length)
    (hN : 1 ≤ N) : (refineRec breaks N).headD 0 = breaks.headD 0 := by
  obtain ⟨m, rfl⟩ : ∃ m, N = m + 1 := ⟨N - 1, by omega⟩
  match breaks, hk with
  | a :: b :: t, _ =>
    show (segPoints a b (m + 1) ++ refineRec (b :: t) (m + 1)).headD 0 = a
    cases h : segPoints a b (m + 1) with
    | nil => exact absurd h (segPoints_ne_nil a b m)
    | cons p s =>
      have hp : p = a := by
        have hh := segPoints_headD a b m
        rw [h] at hh
        simpa using hh
      rw [List.cons_append, hp]
      rfl

lemma refineRec_ge_head (a : ℚ) (t : List ℚ) (N : ℕ)
    (hs : (a :: t).Pairwise (· < ·)) :
    ∀ q ∈ refineRec (a :: t) N, a ≤ q := by
  induction t generalizing a with
  | nil =>
    intro q hq
    simp only [refineRec, List.mem_singleton] at hq
    exact le_of_eq hq.symm
  | cons b t' ih =>
    intro q hq
    have hab : a < b := List.rel_of_pairwise_cons hs (List.mem_cons_self b t')
    rcases List.mem_append.mp hq with hseg | hrec
    · obtain ⟨i, _, rfl⟩ := List.mem_map.mp hseg
      have : (0 : ℚ) ≤ (b - a) * (i : ℚ) / (N : ℚ) :=
        div_nonneg (mul_nonneg (le_of_lt (sub_pos.mpr hab)) (Nat.cast_nonneg i))
          (Nat.cast_nonneg N)
      linarith
    · exact le_of_lt (lt_of_lt_of_le hab (ih b (List.Pairwise.of_cons hs) q hrec))

lemma segPoints_pairwise (a b : ℚ) (N : ℕ) (hab : a < b) :
    (segPoints a b N).Pairwise (· < ·) := by
  cases N with
  | zero => simp [segPoints]
  | succ m =>
    refine (List.pairwise_lt_range (m + 1)).map _ ?_
    intro i j hij
    have hN : (0 : ℚ) < ((m + 1 : ℕ) : ℚ) := by
      exact_mod_cast Nat.succ_pos m
    have hb : (0 : ℚ) < b - a := sub_pos.mpr hab
    have hij' : (i : ℚ) < (j : ℚ) := by exact_mod_cast hij
    have h1 : (b - a) * (i : ℚ) < (b - a) * (j : ℚ) :=
      mul_lt_mul_of_pos_left hij' hb
    have h2 : (b - a) * (i : ℚ) / ((m + 1 : ℕ) : ℚ)
        < (b - a) * (j : ℚ) / ((m + 1 : ℕ) : ℚ) := by
      exact div_lt_div_of_pos_right h1 hN
    linarith

lemma segPoints_lt_right (a b : ℚ) (N : ℕ) (hab : a < b) :
    ∀ p ∈ segPoints a b N, p < b := by
  intro p hp
  obtain ⟨i, hi, rfl⟩ := List.mem_map.mp hp
  rw [List.mem_range] at hi
  have hN : (0 : ℚ) < (N : ℚ) := by
    have : 0 < N := by omega
    exact_mod_cast this
  have hb : (0 : ℚ) < b - a := sub_pos.mpr hab
  have hiN : (i : ℚ) < (N : ℚ) := by exact_mod_cast hi
  have h1 : (b - a) * (i : ℚ) < (b - a) * (N : ℚ) := mul_lt_mul_of_pos_left hiN hb
  have h2 : (b - a) * (i : ℚ) / (N : ℚ) < (b - a) * (N : ℚ) / (N : ℚ) :=
    div_lt_div_of_pos_right h1 hN
  have h3 : (b - a) * (N : ℚ) / (N : ℚ) = b - a := by
    field_simp
  linarith

lemma refineRec_pairwise (breaks : List ℚ) (N : ℕ)
    (hs : breaks.Pairwise (· < ·)) :
    (refineRec breaks N).Pairwise (· < ·) := by
  induction breaks with
  | nil => simp [refineRec]
  | cons a t ih =>
    cases t with
    | nil => simp [refineRec]
    | cons b t' =>
      have hab : a < b := List.rel_of_pairwise_cons hs (List.mem_cons_self b t')
      have hs' : (b :: t').Pairwise (· < ·) := List.Pairwise.of_cons hs
      show (segPoints a b N ++ refineRec (b :: t') N).Pairwise (· < ·)
      rw [List.pairwise_append]
      refine ⟨segPoints_pairwise a b N hab, ih hs', ?_⟩
      intro p hp q hq
      exact lt_of_lt_of_le (segPoints_lt_right a b N hab p hp)
        (refineRec_ge_head b t' N hs' q hq)

lemma refineRec_zero (breaks : List ℚ) (h : 1 ≤ breaks.length) :
    refineRec breaks 0 = [breaks.getLastD 0] := by
  induction breaks with
  | nil => simp at h
  | cons a t ih =>
    cases t with
    | nil => rfl
    | cons b t' =>
      have ih' := ih (by simp)
      show segPoints a b 0 ++ refineRec (b :: t') 0 = _
      rw [show segPoints a b 0 = [] from rfl, List.nil_append, ih']
      simp [List.getLastD_cons]

/-- C8: for every strictly increasing breakpoint list of length k ≥ 2 and
every subdivision count N ≥ 1, `refine_array_1d breaks N` returns exactly
(k-1)·N + 1 points (each interval contributes its left endpoint plus N-1
interior points, plus the appended final breakpoint), strictly increasing,
with first element `breaks[0]` and last element `breaks[-1]`. -/
theorem refine_array_1d_count_correct (breaks : List ℚ) (N : ℕ)
    (hk : 2 ≤ breaks.length) (hN : 1 ≤ N) (hs : breaks.Pairwise (· < ·)) :
    (refine_array_1d breaks N).length = (breaks.length - 1) * N + 1 ∧
    (refine_array_1d breaks N).Pairwise (· < ·) ∧
    (refine_array_1d breaks N).headD 0 = breaks.headD 0 ∧
    (refine_array_1d breaks N).getLastD 0 = breaks.getLastD 0 := by
  rw [refine_eq_rec]
  exact ⟨refineRec_length breaks N (by omega), refineRec_pairwise breaks N hs,
    refineRec_headD breaks N hk hN, refineRec_getLastD breaks N (by omega)⟩

/-- Witness for C8 at breaks = [0, 1, 2], N = 2: the hypotheses hold and the
refined array has (3-1)·2 + 1 = 5 points. -/
theorem refine_array_1d_count_correct_witness :
    (2 ≤ ([0, 1, 2] : List ℚ).length ∧ 1 ≤ 2 ∧
      ([0, 1, 2] : List ℚ).Pairwise (· < ·)) ∧
    ((refine_array_1d [0, 1, 2] 2).length = (([0, 1, 2] : List ℚ).length - 1) * 2 + 1 ∧
     (refine_array_1d [0, 1, 2] 2).Pairwise (· < ·) ∧
     (refine_array_1d [0, 1, 2] 2).headD 0 = ([0, 1, 2] : List ℚ).headD 0 ∧
     (refine_array_1d [0, 1, 2] 2).getLastD 0 = ([0, 1, 2] : List ℚ).getLastD 0) :=
  ⟨⟨by norm_num, by norm_num, by norm_num [List.Pairwise]⟩,
   refine_array_1d_count_correct [0, 1, 2] 2 (by norm_num) (by norm_num)
     (by norm_num [List.Pairwise])⟩

/-- C1 counterexample: for breaks = [0, 1] (k = 2, strictly increasing) and
N = 1, the claim predicts k + (k-1)·N = 3 points with one interior point
inserted, but `refine_array_1d [0, 1] 1 = [0, 1]`: only 2 points and no
interior point. -/
theorem refine_array_1d_claimed_count_false :
    ([0, 1] : List ℚ).Pairwise (· < ·) ∧
    refine_array_1d [0, 1] 1 = [0, 1] ∧
    (refine_array_1d [0, 1] 1).length = 2 ∧
    ([0, 1] : List ℚ).length + (([0, 1] : List ℚ).length - 1) * 1 = 3 := by
  refine ⟨by norm_num [List.Pairwise], ?_, ?_, by norm_num⟩ <;>
    norm_num [refine_array_1d, linspace, List.range_succ]

/-- C1 amended: `refine_array_1d breaks N` on k ≥ 2 strictly increasing
breakpoints with N ≥ 1 returns k + (k-1)·(N-1) points — N-1 (not N) equally
spaced interior points are inserted between consecutive breaks — strictly
increasing, with first and last values equal to the original first and last
breakpoints. -/
theorem refine_array_1d_amended_count (breaks : List ℚ) (N : ℕ)
    (hk : 2 ≤ breaks.length) (hN : 1 ≤ N) (hs : breaks.Pairwise (· < ·)) :
    (refine_array_1d breaks N).length
        = breaks.length + (breaks.length - 1) * (N - 1) ∧
    (refine_array_1d breaks N).Pairwise (· < ·) ∧
    (refine_array_1d breaks N).headD 0 = breaks.headD 0 ∧
    (refine_array_1d breaks N).getLastD 0 = breaks.getLastD 0 := by
  rw [refine_eq_rec]
  refine ⟨?_, refineRec_pairwise breaks N hs,
    refineRec_headD breaks N hk hN, refineRec_getLastD breaks N (by omega)⟩
  rw [refineRec_length breaks N (by omega)]
  obtain ⟨m, rfl⟩ : ∃ m, N = m + 1 := ⟨N - 1, by omega⟩
  obtain ⟨p, hp⟩ : ∃ p, breaks.length = p + 2 := ⟨breaks.length - 2, by omega⟩
  rw [hp]
  have h1 : p + 2 - 1 = p + 1 := by omega
  have h2 : m + 1 - 1 = m := by omega
  rw [h1, h2]
  ring

/-- Witness for the amended C1 at breaks = [0, 2, 5], N = 3: hypotheses hold
and the refined array has 3 + 2·2 = 7 points. -/
theorem refine_array_1d_amended_count_witness :
    (2 ≤ ([0, 2, 5] : List ℚ).length ∧ 1 ≤ 3 ∧
      ([0, 2, 5] : List ℚ).Pairwise (· < ·)) ∧
    ((refine_array_1d [0, 2, 5] 3).length
        = ([0, 2, 5] : List ℚ).length + (([0, 2, 5] : List ℚ).length - 1) * (3 - 1) ∧
     (refine_array_1d [0, 2, 5] 3).Pairwise (· < ·) ∧
     (refine_array_1d [0, 2, 5] 3).headD 0 = ([0, 2, 5] : List ℚ).headD 0 ∧
     (refine_array_1d [0, 2, 5] 3).getLastD 0 = ([0, 2, 5] : List ℚ).getLastD 0) :=
  ⟨⟨by norm_num, by norm_num, by norm_num [List.Pairwise]⟩,
   refine_array_1d_amended_count [0, 2, 5] 3 (by norm_num) (by norm_num)
     (by norm_num [List.Pairwise])⟩

/-- C9: with N = 0 subdivisions and any breakpoint list of length k ≥ 2,
`refine_array_1d breaks 0` is the one-element list holding only the last
breakpoint: every `np.linspace(·, ·, 1)[:-1]` slice is empty, so the other
breakpoints are discarded and the original array is not returned unchanged. -/
theorem refine_array_1d_zero_subdivisions (breaks : List ℚ)
    (hk : 2 ≤ breaks.length) :
    refine_array_1d breaks 0 = [breaks.getLastD 0] := by
  rw [refine_eq_rec]
  exact refineRec_zero breaks (by omega)

/-- Witness for C9 at breaks = [0, 3, 7]: the result is exactly [7]. -/
theorem refine_array_1d_zero_subdivisions_witness :
    (2 ≤ ([0, 3, 7] : List ℚ).length) ∧
    refine_array_1d [0, 3, 7] 0 = [([0, 3, 7] : List ℚ).getLastD 0] :=
  ⟨by norm_num, refine_array_1d_zero_subdivisions [0, 3, 7] (by norm_num)⟩

/-- The global names bound or read by the notebook cells. -/
inductive VarName
  | domain | V | x | y | u | v | a | f | l | bc | equation
  | degree | ncells | domain_h | Vh | equation_h | uh | ue
  | l2norm | l2norm_h | l2_error | h1norm | h1norm_h | h1_error
  | refineArr | plotSols | phi_exact
  deriving DecidableEq

/-- One top-level notebook statement: the names it binds and the names it
reads (with multiplicity). -/
structure Stmt where
  defs : List VarName
  uses : List VarName
  deriving DecidableEq

/-- The notebook's top-level statements, in execution order, transcribed from
`poisson.ipynb` (`refineArr` stands for `refine_array_1d`, `plotSols` for
`plot_solutions`; the body of `plot_solutions` reads `refine_array_1d` and
the free global `phi_exact` when called, attributed to the call statement). -/
def notebookStmts : List Stmt := [
  ⟨[VarName.domain], []⟩,
  ⟨[VarName.V], [VarName.domain]⟩,
  ⟨[VarName.x, VarName.y], [VarName.domain]⟩,
  ⟨[VarName.u, VarName.v], [VarName.V]⟩,
  ⟨[VarName.a], [VarName.u, VarName.v, VarName.domain]⟩,
  ⟨[VarName.f], [VarName.x, VarName.y]⟩,
  ⟨[VarName.l], [VarName.v, VarName.domain, VarName.f]⟩,
  ⟨[VarName.bc], [VarName.u, VarName.domain]⟩,
  ⟨[VarName.equation], [VarName.u, VarName.v, VarName.a, VarName.l, VarName.bc]⟩,
  ⟨[VarName.degree], []⟩,
  ⟨[VarName.ncells], []⟩,
  ⟨[VarName.domain_h], [VarName.domain, VarName.ncells]⟩,
  ⟨[VarName.Vh], [VarName.V, VarName.domain_h, VarName.degree]⟩,
  ⟨[VarName.equation_h], [VarName.equation, VarName.domain_h, VarName.Vh, VarName.Vh]⟩,
  ⟨[VarName.uh], [VarName.equation_h]⟩,
  ⟨[VarName.ue], [VarName.x, VarName.y]⟩,
  ⟨[VarName.u], [VarName.V]⟩,
  ⟨[VarName.l2norm], [VarName.u, VarName.ue, VarName.domain]⟩,
  ⟨[], [VarName.l2norm]⟩,
  ⟨[VarName.l2norm_h], [VarName.l2norm, VarName.domain_h, VarName.Vh]⟩,
  ⟨[VarName.l2_error], [VarName.l2norm_h, VarName.uh]⟩,
  ⟨[], [VarName.l2_error]⟩,
  ⟨[VarName.h1norm], [VarName.u, VarName.ue, VarName.domain]⟩,
  ⟨[VarName.h1norm_h], [VarName.h1norm, VarName.domain_h, VarName.Vh]⟩,
  ⟨[VarName.h1_error], [VarName.h1norm_h, VarName.uh]⟩,
  ⟨[], [VarName.h1_error]⟩,
  ⟨[VarName.h1norm], [VarName.u, VarName.ue, VarName.domain]⟩,
  ⟨[VarName.h1norm_h], [VarName.h1norm, VarName.domain_h, VarName.Vh]⟩,
  ⟨[VarName.h1_error], [VarName.h1norm_h, VarName.uh]⟩,
  ⟨[], [VarName.h1_error]⟩,
  ⟨[VarName.refineArr], []⟩,
  ⟨[VarName.plotSols], []⟩,
  ⟨[VarName.ue], [VarName.x, VarName.y, VarName.u]⟩,
  ⟨[], [VarName.plotSols, VarName.Vh, VarName.uh, VarName.ue,
        VarName.refineArr, VarName.phi_exact]⟩]

/-- Total number of uses of a name across the notebook. -/
def usesCount (stmts : List Stmt) (n : VarName) : ℕ :=
  (stmts.map (fun s => s.uses.count n)).sum

/-- All names bound by some statement. -/
def definedNames (stmts : List Stmt) : List VarName :=
  (stmts.map Stmt.defs).flatten

/-- Placeholder statement for out-of-range indices. -/
def noStmt : Stmt := ⟨[], []⟩

/-- Every binding is read by some later statement, no later than the next
rebinding of the same name. -/
def consumedBeforeRebind (stmts : List Stmt) : Prop :=
  ∀ i < stmts.length, ∀ n ∈ (stmts.getD i noStmt).defs,
    ∃ j < stmts.length, i < j ∧ n ∈ (stmts.getD j noStmt).uses ∧
      ∀ k < j, i < k → n ∉ (stmts.getD k noStmt).defs

instance : DecidablePred consumedBeforeRebind := fun stmts => by
  unfold consumedBeforeRebind
  infer_instance

/-- C7 counterexample: the discretized space `Vh` is a pipeline-stage output
that is consumed six times downstream (twice by the equation discretization,
once by each of the three norm discretizations, once by the visualization),
so stage outputs are not consumed exactly once. -/
theorem notebook_not_consumed_exactly_once :
    VarName.Vh ∈ definedNames notebookStmts ∧
    usesCount notebookStmts VarName.Vh = 6 ∧
    ¬ (∀ n ∈ definedNames notebookStmts, usesCount notebookStmts n = 1) := by
  decide

/-- C7 amended: every stage output is consumed at least once downstream (each
binding is read before the same name is rebound), but several outputs — for
example `Vh` and `uh` — are consumed more than once, and no statement of the
notebook mutates a previously produced object (statements only bind names). -/
theorem notebook_outputs_consumed_at_least_once :
    consumedBeforeRebind notebookStmts ∧
    1 < usesCount notebookStmts VarName.Vh ∧
    1 < usesCount notebookStmts VarName.uh := by
  decide

/-- The piece of the notebook's global namespace that the body of
`plot_solutions` reads at call time: the free name `phi_exact`. -/
structure PlotGlobals where
  phi_exact : Option (ℚ → ℚ → ℚ)

/-- `[[f(e1, e2) for e2 in eta2] for e1 in eta1]`. -/
def evalGrid (f : ℚ → ℚ → ℚ) (eta1 eta2 : List ℚ) : List (List ℚ) :=
  eta1.map (fun e1 => eta2.map (fun e2 => f e1 e2))

/-- Elementwise difference `num - ex` of two grids. -/
def gridSub (xs ys : List (List ℚ)) : List (List ℚ) :=
  List.zipWith (fun r s => List.zipWith (fun p q => p - q) r s) xs ys

/-- Embedding of the field computations of `plot_solutions(Vh, uh, ue, N)`:
refine both break sequences with `refine_array_1d`, evaluate `num` from the
parameter `uh`, evaluate `ex` by calling the free global name `phi_exact`
(the parameter `ue` is never read by the body), and form `err = num - ex`.
`none` models the `NameError` raised when `phi_exact` is not bound in the
globals. -/
def plot_solutions_fields (g : PlotGlobals) (breaks1 breaks2 : List ℚ)
    (uh ue : ℚ → ℚ → ℚ) (N : ℕ) :
    Option (List (List ℚ) × List (List ℚ) × List (List ℚ)) :=
  let eta1 := refine_array_1d breaks1 N
  let eta2 := refine_array_1d breaks2 N
  let num := evalGrid uh eta1 eta2
  match g.phi_exact with
  | none => none
  | some φ =>
      let ex := evalGrid φ eta1 eta2
      some (num, ex, gridSub num ex)

/-- C2: the notebook never binds `phi_exact`, and the exact-solution field of
`plot_solutions` is computed from that free global name, not from the
received parameter `ue`; hence every call in the notebook's global
environment fails with `NameError` (`none`) for all arguments — in
particular the exact-solution callable `ue` is never evaluated on the grid,
contrary to the claim. -/
theorem plot_solutions_ignores_ue :
    (∀ s ∈ notebookStmts, VarName.phi_exact ∉ s.defs) ∧
    (∀ (uh ue : ℚ → ℚ → ℚ) (breaks1 breaks2 : List ℚ) (N : ℕ),
      plot_solutions_fields ⟨none⟩ breaks1 breaks2 uh ue N = none) :=
  ⟨by decide, fun _ _ _ _ _ => rfl⟩

/-- The symbolic values relevant to the visualization cell's bindings. -/
inductive SymVal
  | sinPiXsinPiY
  | scalarFunction (name : String)
  deriving DecidableEq

/-- A Python object bound to a notebook global here: a symbolic expression or
the callable produced by `lambdify`. -/
inductive PyObj
  | sym (e : SymVal)
  | lambdified (e : SymVal)
  deriving DecidableEq

/-- The bindings of the two globals `u` and `ue` tracked across cells. -/
structure BindEnv where
  u : Option PyObj
  ue : Option PyObj
  deriving DecidableEq

/-- Cell `d742586c`: `u, v = [element_of(V, name=i) for i in ['u', 'v']]`
binds `u` to the abstract trial function. -/
def cellFormalModel (env : BindEnv) : BindEnv :=
  ⟨some (PyObj.sym (SymVal.scalarFunction "u")), env.ue⟩

/-- First statement of cell `5925c6cd`: `ue = sin(pi*x)*sin(pi*y)`. -/
def cellAssignUe (env : BindEnv) : BindEnv :=
  ⟨env.u, some (PyObj.sym SymVal.sinPiXsinPiY)⟩

/-- Second statement of cell `5925c6cd`: `u = element_of(V, name='u')`. -/
def cellReassignU (env : BindEnv) : BindEnv :=
  ⟨some (PyObj.sym (SymVal.scalarFunction "u")), env.ue⟩

/-- `lambdify((x, y), obj, 'numpy')` applied to a bound object. -/
def lambdifyObj : PyObj → Option PyObj
  | PyObj.sym e => some (PyObj.lambdified e)
  | PyObj.lambdified _ => none

/-- Final cell `968a2165`: `ue = lambdify((x, y), u, 'numpy')` reads the
current binding of `u` and rebinds `ue`. -/
def cellLambdifyUe (env : BindEnv) : BindEnv :=
  ⟨env.u, env.u.bind lambdifyObj⟩

/-- The bindings in force at the call `plot_solutions(Vh, uh, ue, N=10)`. -/
def envAtPlotCall : BindEnv :=
  cellLambdifyUe (cellReassignU (cellAssignUe (cellFormalModel ⟨none, none⟩)))

/-- C10: at the call site, `ue` is bound to the lambdification of the
abstract trial function `u = element_of(V, name='u')`; the earlier binding of
`ue` to the exact expression `sin(pi*x)*sin(pi*y)` has been overwritten, so
the callable passed as the exact solution is not (a lambdification of) that
expression. -/
theorem ue_at_call_is_lambdified_trial_function :
    envAtPlotCall.ue = some (PyObj.lambdified (SymVal.scalarFunction "u")) ∧
    (cellAssignUe (cellFormalModel ⟨none, none⟩)).ue
        = some (PyObj.sym SymVal.sinPiXsinPiY) ∧
    envAtPlotCall.ue ≠ some (PyObj.lambdified SymVal.sinPiXsinPiY) ∧
    envAtPlotCall.ue ≠ some (PyObj.sym SymVal.sinPiXsinPiY) := by
  decide

/-- Modelled from the spec: the norm kinds accepted by the error evaluator
(`Norm`/`SemiNorm` with kind in l2, h1; semih1 is `SemiNorm` with kind h1).
The norm builders and `assemble` live in the external SymPDE/PsyDAC
libraries, absent from the repository. -/
inductive NormKind
  | l2 | h1 | semih1
  deriving DecidableEq

/-- Modelled from the spec: one quadrature sample of the difference
`u - ue` between the solution field and the exact solution, as produced by
the (external) discretization of a norm: a quadrature weight `w`, the value
`v` of the difference at the point, and the two components `gx`, `gy` of its
gradient. -/
structure QuadSample where
  w : ℚ
  v : ℚ
  gx : ℚ
  gy : ℚ
  deriving DecidableEq

/-- Squared L2 contribution: sum of w·v². -/
def l2Sq (q : List QuadSample) : ℚ :=
  (q.map (fun s => s.w * s.v ^ 2)).sum

/-- Squared H1 semi-norm contribution: sum of w·(gx² + gy²) — gradient
information only, the function-value term omitted. -/
def semih1Sq (q : List QuadSample) : ℚ :=
  (q.map (fun s => s.w * (s.gx ^ 2 + s.gy ^ 2))).sum

/-- Modelled from the spec: the squared discretized error functional per
kind; the full H1 norm includes both the function-value term and the
gradient term. -/
def normSq : NormKind → List QuadSample → ℚ
  | NormKind.l2, q => l2Sq q
  | NormKind.semih1, q => semih1Sq q
  | NormKind.h1, q => l2Sq q + semih1Sq q

lemma l2Sq_nonneg (q : List QuadSample) (hw : ∀ s ∈ q, 0 ≤ s.w) :
    0 ≤ l2Sq q := by
  apply List.sum_nonneg
  intro r hr
  obtain ⟨s, hs, rfl⟩ := List.mem_map.mp hr
  exact mul_nonneg (hw s hs) (sq_nonneg s.v)

lemma semih1Sq_nonneg (q : List QuadSample) (hw : ∀ s ∈ q, 0 ≤ s.w) :
    0 ≤ semih1Sq q := by
  apply List.sum_nonneg
  intro r hr
  obtain ⟨s, hs, rfl⟩ := List.mem_map.mp hr
  exact mul_nonneg (hw s hs) (add_nonneg (sq_nonneg s.gx) (sq_nonneg s.gy))

/-- C4: for the same solution pair (same quadrature samples of `u - ue`)
with nonnegative quadrature weights, the assembled H1 semi-norm error
(`SemiNorm` with kind h1) is at most the assembled full H1 norm error
(`Norm` with kind h1). -/
theorem semih1_error_le_h1_error (q : List QuadSample)
    (hw : ∀ s ∈ q, 0 ≤ s.w) :
    Real.sqrt ((normSq NormKind.semih1 q : ℚ) : ℝ)
      ≤ Real.sqrt ((normSq NormKind.h1 q : ℚ) : ℝ) := by
  apply Real.sqrt_le_sqrt
  have h := l2Sq_nonneg q hw
  have : semih1Sq q ≤ l2Sq q + semih1Sq q := by linarith
  simp only [normSq]
  exact_mod_cast this

/-- Witness for C4 at a concrete quadrature with one sample. -/
theorem semih1_error_le_h1_error_witness :
    (∀ s ∈ [QuadSample.mk 1 2 3 4], 0 ≤ s.w) ∧
    Real.sqrt ((normSq NormKind.semih1 [QuadSample.mk 1 2 3 4] : ℚ) : ℝ)
      ≤ Real.sqrt ((normSq NormKind.h1 [QuadSample.mk 1 2 3 4] : ℚ) : ℝ) :=
  ⟨by decide, semih1_error_le_h1_error [QuadSample.mk 1 2 3 4] (by decide)⟩

/-- C6: for every quadrature sampling of `u - ue` with nonnegative weights
and every kind, the assembled error is a nonnegative scalar, and it is zero
when the solution field equals the exact solution (all sampled differences
and difference gradients vanish). -/
theorem assembled_error_nonneg_and_zero_on_exact (k : NormKind)
    (q : List QuadSample) (hw : ∀ s ∈ q, 0 ≤ s.w) :
    0 ≤ normSq k q ∧ 0 ≤ Real.sqrt ((normSq k q : ℚ) : ℝ) ∧
    ((∀ s ∈ q, s.v = 0 ∧ s.gx = 0 ∧ s.gy = 0) →
      Real.sqrt ((normSq k q : ℚ) : ℝ) = 0) := by
  have hl2 := l2Sq_nonneg q hw
  have hsemi := semih1Sq_nonneg q hw
  refine ⟨?_, Real.sqrt_nonneg _, ?_⟩
  · cases k <;> simp only [normSq] <;> linarith
  · intro hz
    have hzl2 : l2Sq q = 0 := by
      rw [l2Sq]
      apply List.sum_eq_zero
      intro r hr
      obtain ⟨s, hs, rfl⟩ := List.mem_map.mp hr
      rw [(hz s hs).1]
      ring
    have hzsemi : semih1Sq q = 0 := by
      rw [semih1Sq]
      apply List.sum_eq_zero
      intro r hr
      obtain ⟨s, hs, rfl⟩ := List.mem_map.mp hr
      rw [(hz s hs).2.1, (hz s hs).2.2]
      ring
    have hnz : normSq k q = 0 := by
      cases k <;> simp only [normSq, hzl2, hzsemi] <;> ring
    rw [hnz]
    simp

/-- Witness for C6 with kind l2 on a two-sample quadrature whose differences
vanish. -/
theorem assembled_error_nonneg_and_zero_on_exact_witness :
    (∀ s ∈ [QuadSample.mk 1 0 0 0, QuadSample.mk 2 0 0 0], 0 ≤ s.w) ∧
    (0 ≤ normSq NormKind.l2 [QuadSample.mk 1 0 0 0, QuadSample.mk 2 0 0 0] ∧
     0 ≤ Real.sqrt ((normSq NormKind.l2
          [QuadSample.mk 1 0 0 0, QuadSample.mk 2 0 0 0] : ℚ) : ℝ) ∧
     ((∀ s ∈ [QuadSample.mk 1 0 0 0, QuadSample.mk 2 0 0 0],
        s.v = 0 ∧ s.gx = 0 ∧ s.gy = 0) →
       Real.sqrt ((normSq NormKind.l2
          [QuadSample.mk 1 0 0 0, QuadSample.mk 2 0 0 0] : ℚ) : ℝ) = 0)) :=
  ⟨by decide, assembled_error_nonneg_and_zero_on_exact NormKind.l2
    [QuadSample.mk 1 0 0 0, QuadSample.mk 2 0 0 0] (by decide)⟩

/-- Modelled from the spec: the assembled linear-system representation of
the variational problem (stage 4 output). Its contents are produced by the
external `discretize`; only its role as the sole input of `solve` matters. -/
structure DiscreteProblem where
  matrix : List (List ℚ)
  rhs : List ℚ
  deriving DecidableEq

/-- Modelled from the spec: a numerical solution field, characterized by its
coefficient vector. -/
structure SolutionField where
  coeffs : List ℚ
  deriving DecidableEq

/-- C5: `equation_h.solve()` takes no input other than the unchanged
`DiscreteProblem` (the notebook passes no seed or mutable state), so for any
solver function repeated invocations on the same problem return
SolutionFields with identical coefficient vectors. -/
theorem solve_deterministic (solve : DiscreteProblem → SolutionField)
    (equation_h : DiscreteProblem) :
    (solve equation_h).coeffs = (solve equation_h).coeffs := rfl
